import Mathlib

/-!
Verification of the disass-gpui highlighting pipeline (src/main.rs).

The file shallowly embeds the Rust source: the theme table, the language
registry registration performed by `register_asm_extension`, the viewer
construction `AssemblyViewer::new` (whose `expect` panic is embedded as
`Except.error`), and the `uniform_list` render callback of
`AssemblyViewer::render`.  The segment builder invoked through
`asm_lang.highlight` lives in an external crate, so it is modelled from the
specification where a claim needs it.
-/

/-- Maps common highlight capture names to RGB theme colors
(struct `ThemeColors` in src/main.rs, colors as `u32` values). -/
structure ThemeColors where
  background : Nat
  default_text : Nat
  keyword : Nat
  comment : Nat
  register : Nat
  number : Nat
  label : Nat
  deriving DecidableEq

/-- `ThemeColors::dark_theme` from src/main.rs. -/
def ThemeColors.dark_theme : ThemeColors where
  background := 0x1e1e1e
  default_text := 0xd4d4d4
  keyword := 0x569cd6
  comment := 0x6a9955
  register := 0x4ec9b0
  number := 0xb5cea8
  label := 0xdcdcaa

/-- A highlighted segment as consumed by the viewer: the render code reads
`seg.capture.as_str()` and `seg.text.as_str()`, so both fields are plain
(non-optional) strings. -/
structure HighlightSegment where
  text : String
  capture : String
  deriving DecidableEq

/-- The `match seg.capture.as_str()` expression in `AssemblyViewer::render`
(src/main.rs lines 113-120): exact string match against the five known
capture names, any other string falls through to the default text color. -/
def ThemeColors.colorFor (theme : ThemeColors) (capture : String) : Nat :=
  match capture with
  | "label" => theme.label
  | "keyword" => theme.keyword
  | "register" => theme.register
  | "number" => theme.number
  | "comment" => theme.comment
  | _ => theme.default_text

/-- The native grammar objects in play; the source registers exactly one,
`tree_sitter_asm::language()`. -/
inductive NativeGrammar where
  | asm
  deriving DecidableEq

/-- The value `tree_sitter_asm::language()` passed to
`register_native_grammars`. -/
def tree_sitter_asm_language : NativeGrammar := NativeGrammar.asm

/-- File matcher carried by a language config (external `languages` crate
type; only moved around verbatim by the source, so its content is abstract:
a raw payload). -/
structure LanguageMatcher where
  raw : String
  deriving DecidableEq

/-- The fields of the external `LanguageConfig` that src/main.rs reads:
`config.name`, `config.grammar`, `config.matcher`, `config.hidden`. -/
structure LanguageConfig where
  name : String
  grammar : String
  matcher : LanguageMatcher
  hidden : Bool
  deriving DecidableEq

/-- The external `LanguageQueries` struct; src/main.rs only sets its
`highlight` field. -/
structure LanguageQueries where
  highlight : Option String
  deriving DecidableEq

/-- `LanguageQueries::default()`: no queries loaded. -/
def LanguageQueries.default : LanguageQueries where
  highlight := none

/-- The external `LoadedLanguage` struct as constructed in src/main.rs:
config, queries, and two optional capability hooks.  The capabilities'
payload types are irrelevant to the source (it only writes `None`), so they
are modelled with a unit payload. -/
structure LoadedLanguage where
  config : LanguageConfig
  queries : LanguageQueries
  context_provider : Option Unit
  toolchain_provider : Option Unit
  deriving DecidableEq

/-- One language entry of the registry, holding the four scalar arguments of
`register_language` plus the load closure (embedded as a function
`Unit → Except String LoadedLanguage`; the Rust closure returns
`Result<LoadedLanguage, _>`). -/
structure RegisteredLanguage where
  name : String
  grammar : String
  matcher : LanguageMatcher
  hidden : Bool
  load : Unit → Except String LoadedLanguage

/-- The external `LanguageRegistry`, modelled as the two collections the
source adds to: native grammars and registered languages. -/
structure LanguageRegistry where
  native_grammars : List (String × NativeGrammar)
  languages : List RegisteredLanguage

/-- `register_asm_extension` from src/main.rs, as a pure state transform on
the registry.  The contents of the two embedded assets
(`config.toml` after `toml::from_str`, and `highlight.scm`) are not part of
src/, so they enter as parameters `config` and `highlight_scm`. -/
def register_asm_extension (registry : LanguageRegistry) (config : LanguageConfig)
    (highlight_scm : String) : LanguageRegistry :=
  let registry1 : LanguageRegistry :=
    { registry with
      native_grammars := registry.native_grammars ++ [("asm", tree_sitter_asm_language)] }
  let queries : LanguageQueries := { LanguageQueries.default with highlight := some highlight_scm }
  { registry1 with
    languages := registry1.languages ++
      [{ name := config.name
         grammar := config.grammar
         matcher := config.matcher
         hidden := config.hidden
         load := fun _ =>
           Except.ok
             { config := config
               queries := queries
               context_provider := none
               toolchain_provider := none } }] }

/-- `registry.language(name)` lookup used by `AssemblyViewer::new`: find the
registered language by name. -/
def LanguageRegistry.language (registry : LanguageRegistry) (name : String) :
    Option RegisteredLanguage :=
  registry.languages.find? (fun l => l.name == name)

/-- The main application state (struct `AssemblyViewer` in src/main.rs):
highlighted lines plus the theme. -/
structure AssemblyViewer where
  lines : List (List HighlightSegment)
  theme : ThemeColors

/-- `AssemblyViewer::new` from src/main.rs.  The `.expect("ASM language not
found in registry")` panic is embedded as `Except.error` with the panic
message; the external `asm_lang.highlight` method enters as the parameter
`highlight`. -/
def AssemblyViewer.new
    (highlight : RegisteredLanguage → String → List (List HighlightSegment))
    (source : String) (theme : ThemeColors) (registry : LanguageRegistry) :
    Except String AssemblyViewer :=
  match registry.language "asm" with
  | none => Except.error "ASM language not found in registry"
  | some asm_lang => Except.ok { lines := highlight asm_lang source, theme := theme }

/-- An empty registry: nothing registered. -/
def emptyRegistry : LanguageRegistry where
  native_grammars := []
  languages := []

/-! ## The `uniform_list` render callback of `AssemblyViewer::render`

The callback (src/main.rs lines 108-128) iterates `for i in range`, looks up
`viewer.lines[i]`, and for each segment of that line emits a child colored by
the capture-name match.  A paintable line description is embedded as the list
of its `(text, color)` runs; the whole callback as a function from the range
to the list of line descriptions.  Rust's panicking index `viewer.lines[i]`
is embedded as the fallible lookup `lines[i]?`, so the callback returns
`none` exactly when an index would panic. -/

/-- The body of the inner `for seg in &viewer.lines[i]` loop: one
`(text, color)` run per segment, the color resolved from the capture name. -/
def renderLine (theme : ThemeColors) (segs : List HighlightSegment) :
    List (String × Nat) :=
  segs.map (fun seg => (seg.text, theme.colorFor seg.capture))

/-- The index sequence of Rust's `start..stop` iteration: `count` consecutive
indices from `start`. -/
def rangeList (start : Nat) : Nat → List Nat
  | 0 => []
  | count + 1 => start :: rangeList (start + 1) count

/-- The outer `for i in range` loop of the callback over an explicit list of
indices: each index is looked up in `viewer.lines` (a panic, i.e. `none`,
when out of bounds) and contributes one rendered line. -/
def AssemblyViewer.renderIndices (viewer : AssemblyViewer) :
    List Nat → Option (List (List (String × Nat)))
  | [] => some []
  | i :: rest =>
    match viewer.lines[i]? with
    | none => none
    | some segs =>
      match viewer.renderIndices rest with
      | none => none
      | some items => some (renderLine viewer.theme segs :: items)

/-- The render callback for the contiguous range `[start, stop)`. -/
def AssemblyViewer.renderRange (viewer : AssemblyViewer) (start stop : Nat) :
    Option (List (List (String × Nat))) :=
  viewer.renderIndices (rangeList start (stop - start))

/-- The item count handed to `gpui::uniform_list`: `self.lines.len()`
(src/main.rs line 107). -/
def AssemblyViewer.uniformListItemCount (viewer : AssemblyViewer) : Nat :=
  viewer.lines.length

/-- The callback as handed to `uniform_list`, which receives the viewer state
by mutable reference: embedded state-passing, returning the produced items
together with the viewer state left behind by the callback body (which
performs no assignment to any viewer field). -/
def AssemblyViewer.renderCallback (viewer : AssemblyViewer) (start stop : Nat) :
    Option (List (List (String × Nat))) × AssemblyViewer :=
  (viewer.renderRange start stop, viewer)

/-! ## Segment builder, modelled from the spec

`asm_lang.highlight(source)` is implemented in the external `zed_syntax`
crate: only its caller is under src/.  The definitions below model it from
the specification's Segment Builder algorithm (spec section 4.2). -/

/-- Modelled from the spec: a capture, a triple
`(start_offset, end_offset, capture_name)` over the source buffer. -/
structure Capture where
  start : Nat
  stop : Nat
  name : String
  deriving DecidableEq

/-- Modelled from the spec: a segment of the built document, a contiguous
run of text tagged with at most one capture name (or none).  Text is a
character list so that offsets and byte-for-byte concatenation are exact. -/
structure SpecSegment where
  text : List Char
  capture : Option String
  deriving DecidableEq

/-- Modelled from the spec: among the captures covering absolute position
`pos`, the innermost (shortest-range) one wins; a tie keeps the earlier
capture in sequence order.  Zero-length captures cover no position, so they
are dropped, and a capture covers a position on another line never, so
multi-line captures are implicitly clipped to each line. -/
def resolveAt (caps : List Capture) (pos : Nat) : Option String :=
  let covering := caps.filter (fun c => decide (c.start ≤ pos) && decide (pos < c.stop))
  (covering.foldl
    (fun best c =>
      match best with
      | none => some c
      | some b => if c.stop - c.start < b.stop - b.start then some c else some b)
    none).map Capture.name

/-- Modelled from the spec: tag each character of a line, starting at
absolute offset `pos`, with its resolved capture. -/
def tagChars (caps : List Capture) (pos : Nat) : List Char → List (Char × Option String)
  | [] => []
  | c :: rest => (c, resolveAt caps pos) :: tagChars caps (pos + 1) rest

/-- Modelled from the spec: prepend one tagged character to a built run
list, extending the first run when the capture matches, otherwise opening a
new run. -/
def pushRun (c : Char) (t : Option String) : List SpecSegment → List SpecSegment
  | [] => [{ text := [c], capture := t }]
  | s :: ss =>
    if t = s.capture then { text := c :: s.text, capture := t } :: ss
    else { text := [c], capture := t } :: s :: ss

/-- Modelled from the spec: merge tagged characters into maximal runs
sharing the same resolved capture, each run one segment. -/
def groupRuns : List (Char × Option String) → List SpecSegment
  | [] => []
  | (c, t) :: rest => pushRun c t (groupRuns rest)

/-- Modelled from the spec: build the segment list of one line whose first
character sits at absolute offset `lineStart`. -/
def segmentLine (caps : List Capture) (lineStart : Nat) (chars : List Char) :
    List SpecSegment :=
  groupRuns (tagChars caps lineStart chars)

/-- Modelled from the spec: split the source text into lines at
line-terminator boundaries.  Always yields at least one line; a trailing
terminator yields a final empty line. -/
def splitLines : List Char → List (List Char)
  | [] => [[]]
  | c :: rest =>
    if c = '\n' then [] :: splitLines rest
    else
      match splitLines rest with
      | [] => [[c]]
      | l :: ls => (c :: l) :: ls

/-- Modelled from the spec: pair each line with its start offset in the
original buffer (each line terminator occupies one position). -/
def withStarts (off : Nat) : List (List Char) → List (Nat × List Char)
  | [] => []
  | l :: ls => (off, l) :: withStarts (off + l.length + 1) ls

/-- Modelled from the spec: the whole segment builder, i.e. the
`highlight` capability — source text plus capture list to per-line segment
lists (the HighlightedDocument). -/
def highlightDoc (source : List Char) (caps : List Capture) :
    List (List SpecSegment) :=
  (withStarts 0 (splitLines source)).map (fun p => segmentLine caps p.1 p.2)

/-- Concatenation of a line's segment texts, in order. -/
def concatSegs (segs : List SpecSegment) : List Char :=
  segs.foldr (fun s acc => s.text ++ acc) []

/-- Rejoin lines with the line terminator that bounded them. -/
def joinLines : List (List Char) → List Char
  | [] => []
  | l :: ls =>
    match ls with
    | [] => l
    | _ :: _ => l ++ '\n' :: joinLines ls

/-! ## Helper lemmas -/

theorem rangeList_length (start count : Nat) : (rangeList start count).length = count := by
  induction count generalizing start with
  | zero => rfl
  | succ n ih => simp [rangeList, ih]

theorem rangeList_getElem (start count k : Nat) (hk : k < count) :
    (rangeList start count)[k]? = some (start + k) := by
  induction count generalizing start k with
  | zero => omega
  | succ n ih =>
    cases k with
    | zero => simp [rangeList]
    | succ m =>
      have := ih (start + 1) m (by omega)
      simp [rangeList, this]
      omega

theorem rangeList_mem (start count i : Nat) :
    i ∈ rangeList start count ↔ start ≤ i ∧ i < start + count := by
  induction count generalizing start with
  | zero => simp [rangeList]
  | succ n ih =>
    simp [rangeList, ih (start + 1)]
    omega

theorem renderIndices_total (viewer : AssemblyViewer) (idxs : List Nat)
    (h : ∀ i ∈ idxs, i < viewer.lines.length) :
    ∃ items, viewer.renderIndices idxs = some items := by
  induction idxs with
  | nil => exact ⟨[], rfl⟩
  | cons i rest ih =>
    have hi : i < viewer.lines.length := h i (List.mem_cons_self i rest)
    have hsome : ∃ segs, viewer.lines[i]? = some segs := by
      have := List.getElem?_eq_getElem hi
      exact ⟨_, this⟩
    obtain ⟨segs, hsegs⟩ := hsome
    obtain ⟨items, hitems⟩ := ih (fun j hj => h j (List.mem_cons_of_mem i hj))
    exact ⟨renderLine viewer.theme segs :: items,
      by simp [AssemblyViewer.renderIndices, hsegs, hitems]⟩

theorem renderIndices_shape (viewer : AssemblyViewer) (idxs : List Nat)
    (items : List (List (String × Nat)))
    (h : viewer.renderIndices idxs = some items) :
    items.length = idxs.length ∧
      ∀ k, k < idxs.length →
        ∃ i segs, idxs[k]? = some i ∧ viewer.lines[i]? = some segs ∧
          items[k]? = some (renderLine viewer.theme segs) := by
  induction idxs generalizing items with
  | nil =>
    simp [AssemblyViewer.renderIndices] at h
    subst h
    exact ⟨rfl, fun k hk => by simp at hk⟩
  | cons i rest ih =>
    simp only [AssemblyViewer.renderIndices] at h
    cases hsegs : viewer.lines[i]? with
    | none => rw [hsegs] at h; exact absurd h (by simp)
    | some segs =>
      rw [hsegs] at h
      cases hrest : viewer.renderIndices rest with
      | none => rw [hrest] at h; exact absurd h (by simp)
      | some tailItems =>
        rw [hrest] at h
        simp only [Option.some.injEq] at h
        subst h
        obtain ⟨hlen, hpt⟩ := ih tailItems hrest
        refine ⟨by simp [hlen], fun k hk => ?_⟩
        cases k with
        | zero => exact ⟨i, segs, by simp, hsegs, by simp⟩
        | succ m =>
          obtain ⟨j, segs2, hj, hsegs2, hit⟩ := hpt m (by simpa using hk)
          exact ⟨j, segs2, by simpa using hj, hsegs2, by simpa using hit⟩

theorem tagChars_map_fst (caps : List Capture) (pos : Nat) (l : List Char) :
    (tagChars caps pos l).map Prod.fst = l := by
  induction l generalizing pos with
  | nil => rfl
  | cons c rest ih => simp [tagChars, ih]

theorem concatSegs_cons (s : SpecSegment) (ss : List SpecSegment) :
    concatSegs (s :: ss) = s.text ++ concatSegs ss := rfl

theorem concatSegs_pushRun (c : Char) (t : Option String) (ss : List SpecSegment) :
    concatSegs (pushRun c t ss) = c :: concatSegs ss := by
  cases ss with
  | nil => rfl
  | cons s rest =>
    simp only [pushRun]
    split
    · rw [concatSegs_cons, concatSegs_cons]
      rfl
    · rw [concatSegs_cons, concatSegs_cons]
      rfl

theorem concatSegs_groupRuns (l : List (Char × Option String)) :
    concatSegs (groupRuns l) = l.map Prod.fst := by
  induction l with
  | nil => rfl
  | cons p rest ih =>
    obtain ⟨c, t⟩ := p
    simp only [groupRuns, concatSegs_pushRun, ih, List.map_cons]

theorem segmentLine_concat (caps : List Capture) (lineStart : Nat) (chars : List Char) :
    concatSegs (segmentLine caps lineStart chars) = chars := by
  rw [segmentLine, concatSegs_groupRuns, tagChars_map_fst]

theorem withStarts_segments_concat (caps : List Capture) (ls : List (List Char)) (off : Nat) :
    ((withStarts off ls).map (fun p => segmentLine caps p.1 p.2)).map concatSegs = ls := by
  induction ls generalizing off with
  | nil => rfl
  | cons l rest ih => simp [withStarts, segmentLine_concat, ih]

theorem splitLines_ne_nil (s : List Char) : splitLines s ≠ [] := by
  cases s with
  | nil => simp [splitLines]
  | cons c rest =>
    simp only [splitLines]
    split
    · simp
    · cases h : splitLines rest <;> simp

theorem joinLines_one (l : List Char) : joinLines [l] = l := rfl

theorem joinLines_cons2 (l l2 : List Char) (ls : List (List Char)) :
    joinLines (l :: l2 :: ls) = l ++ '\n' :: joinLines (l2 :: ls) := rfl

theorem joinLines_splitLines (s : List Char) : joinLines (splitLines s) = s := by
  induction s with
  | nil => rfl
  | cons c rest ih =>
    simp only [splitLines]
    split
    · rename_i hc
      cases h : splitLines rest with
      | nil => exact absurd h (splitLines_ne_nil rest)
      | cons l ls =>
        rw [h] at ih
        subst hc
        rw [joinLines_cons2, ih]
        rfl
    · cases h : splitLines rest with
      | nil => exact absurd h (splitLines_ne_nil rest)
      | cons l ls =>
        rw [h] at ih
        cases ls with
        | nil =>
          rw [joinLines_one] at ih
          rw [joinLines_one, ih]
        | cons l2 ls2 =>
          rw [joinLines_cons2] at ih
          rw [joinLines_cons2, List.cons_append, ih]

theorem renderIndices_frame (viewer1 viewer2 : AssemblyViewer) (idxs : List Nat)
    (hth : viewer2.theme = viewer1.theme)
    (hagree : ∀ i ∈ idxs, viewer2.lines[i]? = viewer1.lines[i]?) :
    viewer2.renderIndices idxs = viewer1.renderIndices idxs := by
  induction idxs with
  | nil => rfl
  | cons i rest ih =>
    have hi := hagree i (List.mem_cons_self i rest)
    have hrest := ih (fun j hj => hagree j (List.mem_cons_of_mem i hj))
    simp only [AssemblyViewer.renderIndices, hi, hrest, hth]

theorem renderRange_spec (viewer : AssemblyViewer) (start stop : Nat)
    (h1 : start ≤ stop) (h2 : stop ≤ viewer.lines.length) :
    ∃ items, viewer.renderRange start stop = some items ∧
      items.length = stop - start ∧
      ∀ k, k < stop - start →
        ∃ segs, viewer.lines[start + k]? = some segs ∧
          items[k]? = some (renderLine viewer.theme segs) := by
  have hin : ∀ i ∈ rangeList start (stop - start), i < viewer.lines.length := by
    intro i hi
    have := (rangeList_mem start (stop - start) i).mp hi
    omega
  obtain ⟨items, hitems⟩ := renderIndices_total viewer _ hin
  obtain ⟨hlen, hpt⟩ := renderIndices_shape viewer _ items hitems
  refine ⟨items, hitems, by rw [hlen, rangeList_length], fun k hk => ?_⟩
  have hkr : k < (rangeList start (stop - start)).length := by
    rw [rangeList_length]; exact hk
  obtain ⟨i, segs, hi, hsegs, hit⟩ := hpt k hkr
  rw [rangeList_getElem start (stop - start) k hk] at hi
  have hik : start + k = i := by injection hi
  rw [hik]
  exact ⟨segs, hsegs, hit⟩

/-- A three-line viewer state used to exercise the render callback on
concrete input: a keyword line, an empty line, a comment line. -/
def demoViewer : AssemblyViewer where
  lines := [[{ text := "ret", capture := "keyword" }],
            [],
            [{ text := "// c", capture := "comment" }]]
  theme := ThemeColors.dark_theme

/-! ## Claim theorems -/

/-- C1 (counterexample): requesting highlighting when the "asm" grammar is
not registered does not fall back to an unhighlighted document — the error
is raised to the caller: `AssemblyViewer::new` on an empty registry aborts
with the `expect` panic message. -/
theorem asm_missing_grammar_cex :
    AssemblyViewer.new (fun _ _ => []) "x" ThemeColors.dark_theme emptyRegistry =
      Except.error "ASM language not found in registry" := rfl

/-- C1 (amended): whenever the registry lookup of the "asm" language comes
back empty, `AssemblyViewer::new` panics (raises) with the message
"ASM language not found in registry" instead of producing a viewer with
unhighlighted text. -/
theorem asm_missing_grammar_raises
    (highlight : RegisteredLanguage → String → List (List HighlightSegment))
    (source : String) (theme : ThemeColors) (registry : LanguageRegistry)
    (h : registry.language "asm" = none) :
    AssemblyViewer.new highlight source theme registry =
      Except.error "ASM language not found in registry" := by
  unfold AssemblyViewer.new
  rw [h]

/-- C1 (witness): the amended claim at the empty registry. -/
theorem asm_missing_grammar_raises_witness :
    emptyRegistry.language "asm" = none ∧
    AssemblyViewer.new (fun _ _ => []) "mov x0, x1" ThemeColors.dark_theme
        emptyRegistry =
      Except.error "ASM language not found in registry" :=
  ⟨rfl, asm_missing_grammar_raises (fun _ _ => []) "mov x0, x1"
    ThemeColors.dark_theme emptyRegistry rfl⟩

/-- C2: for every source text and capture list, concatenating the text of
all segments of every line, in line order, with line terminators restored
at the line boundaries, reconstructs the source text exactly. -/
theorem highlight_round_trip (source : List Char) (caps : List Capture) :
    joinLines ((highlightDoc source caps).map concatSegs) = source := by
  unfold highlightDoc
  rw [withStarts_segments_concat]
  exact joinLines_splitLines source

/-- C3: the render-time color resolution is a total pure function of the
capture name: the theme's label, keyword, register, number, or comment
color exactly on a character-for-character match of the respective name,
and the default text color on every other string (so also on "foo" and
on the empty string); being a total function into `Nat` it always returns
a defined color. -/
theorem colorFor_exact_lookup (theme : ThemeColors) (capture : String) :
    theme.colorFor capture =
      if capture = "label" then theme.label
      else if capture = "keyword" then theme.keyword
      else if capture = "register" then theme.register
      else if capture = "number" then theme.number
      else if capture = "comment" then theme.comment
      else theme.default_text := by
  unfold ThemeColors.colorFor
  split <;> simp_all

/-- C4: with captures [0,10) named "keyword" and [2,5) named "register" on
one ten-character line, the innermost capture wins on the overlap: the
built segments are [0,2) keyword, [2,5) register, [5,10) keyword. -/
theorem overlap_innermost_wins :
    highlightDoc "abcdefghij".toList
        [{ start := 0, stop := 10, name := "keyword" },
         { start := 2, stop := 5, name := "register" }] =
      [[{ text := "ab".toList, capture := some "keyword" },
        { text := "cde".toList, capture := some "register" },
        { text := "fghij".toList, capture := some "keyword" }]] := by
  decide

/-- C5: for a contiguous in-bounds range of line indices the render
callback yields exactly one paintable line description per index, in
ascending index order, each being the ordered (text, color) runs of that
line's segments with colors produced by the capture-name resolution. -/
theorem render_range_exact (viewer : AssemblyViewer) (start stop : Nat)
    (h1 : start ≤ stop) (h2 : stop ≤ viewer.lines.length) :
    ∃ items, viewer.renderRange start stop = some items ∧
      items.length = stop - start ∧
      ∀ k, k < stop - start →
        ∃ segs, viewer.lines[start + k]? = some segs ∧
          items[k]? =
            some (segs.map (fun seg => (seg.text, viewer.theme.colorFor seg.capture))) := by
  obtain ⟨items, hsome, hlen, hpt⟩ := renderRange_spec viewer start stop h1 h2
  refine ⟨items, hsome, hlen, fun k hk => ?_⟩
  obtain ⟨segs, hsegs, hit⟩ := hpt k hk
  exact ⟨segs, hsegs, by simpa [renderLine] using hit⟩

/-- C5 (witness): the exact-range theorem at the three-line demo viewer on
the full range [0, 3). -/
theorem render_range_exact_witness :
    ((0 : Nat) ≤ 3 ∧ 3 ≤ demoViewer.lines.length) ∧
    ∃ items, demoViewer.renderRange 0 3 = some items ∧
      items.length = 3 - 0 ∧
      ∀ k, k < 3 - 0 →
        ∃ segs, demoViewer.lines[0 + k]? = some segs ∧
          items[k]? =
            some (segs.map (fun seg => (seg.text, demoViewer.theme.colorFor seg.capture))) :=
  ⟨⟨by decide, by decide⟩, render_range_exact demoViewer 0 3 (by decide) (by decide)⟩

/-- C6: when the range endpoints lie within the item count handed to the
virtualized list — which is exactly the line count of the highlighted
document — every line access of the render callback is in bounds (the
callback is total, it never hits the panicking index), and the callback
reads only lines with indices in the requested range: any viewer state
agreeing with it there (and in theme) renders identically. -/
theorem render_range_in_bounds (viewer other : AssemblyViewer) (start stop : Nat)
    (h1 : start ≤ stop) (h2 : stop ≤ viewer.uniformListItemCount)
    (hth : other.theme = viewer.theme)
    (hagree : ∀ i, start ≤ i → i < stop → other.lines[i]? = viewer.lines[i]?) :
    viewer.uniformListItemCount = viewer.lines.length ∧
    (viewer.renderRange start stop).isSome = true ∧
    other.renderRange start stop = viewer.renderRange start stop := by
  obtain ⟨items, hsome, _, _⟩ := renderRange_spec viewer start stop h1 h2
  refine ⟨rfl, by rw [hsome]; rfl, ?_⟩
  exact renderIndices_frame viewer other _ hth (fun i hi => by
    have := (rangeList_mem start (stop - start) i).mp hi
    exact hagree i this.1 (by omega))

/-- C6 (witness): the in-bounds theorem at the demo viewer on range [0, 2),
with the agreeing state taken to be the viewer itself. -/
theorem render_range_in_bounds_witness :
    ((0 : Nat) ≤ 2 ∧ 2 ≤ demoViewer.uniformListItemCount ∧
     demoViewer.theme = demoViewer.theme ∧
     (∀ i, 0 ≤ i → i < 2 → demoViewer.lines[i]? = demoViewer.lines[i]?)) ∧
    (demoViewer.uniformListItemCount = demoViewer.lines.length ∧
     (demoViewer.renderRange 0 2).isSome = true ∧
     demoViewer.renderRange 0 2 = demoViewer.renderRange 0 2) :=
  ⟨⟨by decide, by decide, rfl, fun _ _ _ => rfl⟩,
   render_range_in_bounds demoViewer demoViewer 0 2 (by decide) (by decide) rfl
     (fun _ _ _ => rfl)⟩

/-- C7: the render callback has no side effects on the viewer state: the
lines and theme fields it hands back are the ones it received, a repeated
call with the same range returns the identical result, and a call with any
other (possibly overlapping) range after a first call returns what it
would have returned on the untouched state — the highlighted document is
never mutated after its construction. -/
theorem renderCallback_pure (viewer : AssemblyViewer) (s1 t1 s2 t2 : Nat) :
    (viewer.renderCallback s1 t1).2.lines = viewer.lines ∧
    (viewer.renderCallback s1 t1).2.theme = viewer.theme ∧
    ((viewer.renderCallback s1 t1).2.renderCallback s1 t1).1 =
      (viewer.renderCallback s1 t1).1 ∧
    ((viewer.renderCallback s1 t1).2.renderCallback s2 t2).1 =
      (viewer.renderCallback s2 t2).1 :=
  ⟨rfl, rfl, rfl, rfl⟩

/-- C8: a line whose segment list is empty still yields exactly one line
description at render time — counted in the output like every other line —
and that description has zero (text, color) runs: a blank row, not a
skipped line. -/
theorem empty_line_blank_row (viewer : AssemblyViewer) (start stop k : Nat)
    (h1 : start ≤ stop) (h2 : stop ≤ viewer.lines.length)
    (hk : start + k < stop) (hempty : viewer.lines[start + k]? = some []) :
    ∃ items, viewer.renderRange start stop = some items ∧
      items.length = stop - start ∧ items[k]? = some [] := by
  obtain ⟨items, hsome, hlen, hpt⟩ := renderRange_spec viewer start stop h1 h2
  obtain ⟨segs, hsegs, hit⟩ := hpt k (by omega)
  rw [hempty] at hsegs
  have : segs = [] := by injection hsegs with h; exact h.symm
  subst this
  exact ⟨items, hsome, hlen, hit⟩

/-- C8 (witness): the blank-row theorem at the demo viewer, whose middle
line (index 1) is empty, on the range [0, 3). -/
theorem empty_line_blank_row_witness :
    ((0 : Nat) ≤ 3 ∧ 3 ≤ demoViewer.lines.length ∧ 0 + 1 < 3 ∧
     demoViewer.lines[0 + 1]? = some []) ∧
    ∃ items, demoViewer.renderRange 0 3 = some items ∧
      items.length = 3 - 0 ∧ items[1]? = some [] :=
  ⟨⟨by decide, by decide, by decide, by decide⟩,
   empty_line_blank_row demoViewer 0 3 1 (by decide) (by decide) (by decide)
     (by decide)⟩

/-- C9: `register_asm_extension` adds the native "asm" tree-sitter grammar
to the registry and registers exactly one language, whose name, grammar id,
matcher, and hidden flag come from the embedded config, and whose load
closure on every invocation returns Ok of a loaded language carrying that
config, the embedded highlight query, and both optional capabilities
(context provider and toolchain provider) absent. -/
theorem register_asm_extension_registers (registry : LanguageRegistry)
    (config : LanguageConfig) (highlight_scm : String) :
    (register_asm_extension registry config highlight_scm).native_grammars =
        registry.native_grammars ++ [("asm", tree_sitter_asm_language)] ∧
    ∃ entry : RegisteredLanguage,
      (register_asm_extension registry config highlight_scm).languages =
          registry.languages ++ [entry] ∧
      entry.name = config.name ∧ entry.grammar = config.grammar ∧
      entry.matcher = config.matcher ∧ entry.hidden = config.hidden ∧
      ∀ u : Unit,
        entry.load u =
          Except.ok { config := config
                      queries := { highlight := some highlight_scm }
                      context_provider := none
                      toolchain_provider := none } := by
  refine ⟨rfl, ⟨_, rfl, rfl, rfl, rfl, rfl, fun _ => rfl⟩⟩

/-- C10: at the render boundary a segment's capture tag is a plain string,
so uncaptured text is any name outside the recognized five-name set: every
such segment resolves to the default text color, and two segments with the
same text whose capture names both fall outside the set render to identical
(text, color) runs — uncaptured and unrecognized are indistinguishable. -/
theorem uncaptured_indistinguishable (theme : ThemeColors) (name1 name2 : String)
    (h1 : name1 ∉ ["label", "keyword", "register", "number", "comment"])
    (h2 : name2 ∉ ["label", "keyword", "register", "number", "comment"]) :
    theme.colorFor name1 = theme.default_text ∧
    ∀ text : String,
      renderLine theme [{ text := text, capture := name1 }] =
        renderLine theme [{ text := text, capture := name2 }] := by
  have hd : ∀ n : String, n ∉ ["label", "keyword", "register", "number", "comment"] →
      theme.colorFor n = theme.default_text := by
    intro n hn
    unfold ThemeColors.colorFor
    split <;> simp_all
  refine ⟨hd name1 h1, fun text => ?_⟩
  simp [renderLine, hd name1 h1, hd name2 h2]

/-- C10 (witness): the indistinguishability theorem at the unrecognized
name "foo" and the empty string, on the dark theme. -/
theorem uncaptured_indistinguishable_witness :
    ("foo" ∉ ["label", "keyword", "register", "number", "comment"]) ∧
    ("" ∉ ["label", "keyword", "register", "number", "comment"]) ∧
    ThemeColors.dark_theme.colorFor "foo" = ThemeColors.dark_theme.default_text ∧
    renderLine ThemeColors.dark_theme [{ text := "x", capture := "foo" }] =
      renderLine ThemeColors.dark_theme [{ text := "x", capture := "" }] :=
  ⟨by decide, by decide,
   (uncaptured_indistinguishable ThemeColors.dark_theme "foo" ""
     (by decide) (by decide)).1,
   (uncaptured_indistinguishable ThemeColors.dark_theme "foo" ""
     (by decide) (by decide)).2 "x"⟩
